import Mathlib

/-!
Shallow embedding of `funsor/handlers.py`, `funsor/pyro/distribution.py`
(the `mode` method's name environment) and the control structure of
`examples/eeg_funsor_slds.py` (`SLDS.log_prob`, `SLDS.filter_and_predict`),
together with theorems settling the specification claims about them.
-/

namespace Funsor

/-- Embedding of `Label = namedtuple("Label", ["name"])`: a message label
carrying an optional name.  `V` is the type of (non-None) Python values. -/
structure Label (V : Type) where
  name : Option V
deriving DecidableEq

/-- Embedding of the message dictionary built by `effectful`:
`{"label": ..., "fn": ..., "args": ..., "kwargs": ..., "value": None}`.
The `stop` field models the optional `"stop"` key read by
`msg.get("stop")` (absent = `false`).  A Python function may return `None`,
so `fn` returns `Option V`. -/
structure Msg (V : Type) where
  label : Label V
  fn : List V → List (String × V) → Option V
  args : List V
  kwargs : List (String × V)
  value : Option V
  stop : Bool

/-- Embedding of a `Handler` object (`handlers.py` lines 12-31): an identity
`hid` (modelling Python object identity for the `is` check in `__exit__`)
plus the `process` and `postprocess` methods, which mutate the message in
place — modelled as functions from message to message. -/
structure Handler (V : Type) where
  hid : Nat
  process : Msg V → Msg V
  postprocess : Msg V → Msg V

/-- Result of the first loop of `apply_stack`: the mutated message, the
final value of the loop variable `pointer` (`none` when the loop body never
ran, i.e. `pointer` was left unbound), and the handlers whose `process`
was invoked, in invocation order. -/
structure ProcOut (V : Type) where
  msg : Msg V
  pointer : Option Nat
  processed : List (Handler V)

/-- Embedding of the first loop of `apply_stack` (`handlers.py` 71-74):
`for pointer, handler in enumerate(reversed(HANDLER_STACK)): handler.process(msg);
if msg.get("stop"): break`.  The argument list is the already-reversed
stack and `i` is the current value of `enumerate`'s counter. -/
def processPass {V : Type} : List (Handler V) → Nat → Msg V → ProcOut V
  | [], _, m => ⟨m, none, []⟩
  | h :: rest, i, m =>
    let m1 := h.process m
    if m1.stop then ⟨m1, some i, [h]⟩
    else
      let r := processPass rest (i + 1) m1
      ⟨r.msg, some (r.pointer.getD i), h :: r.processed⟩

/-- Sequential application of the `process` methods of a list of handlers
to a message; used to state what the process pass computes. -/
def runProcess {V : Type} (hs : List (Handler V)) (m : Msg V) : Msg V :=
  hs.foldl (fun m h => h.process m) m

/-- Embedding of `if msg["value"] is None: msg["value"] = msg["fn"](*msg["args"],
**msg["kwargs"])` (`handlers.py` 75-76).  Returns the updated message and
whether the wrapped function was invoked. -/
def fnStep {V : Type} (m : Msg V) : Msg V × Bool :=
  match m.value with
  | none => ({ m with value := m.fn m.args m.kwargs }, true)
  | some _ => (m, false)

/-- Python slice `l[-k:]` for `k ≥ 1`: the last `k` elements (the whole
list when `k` exceeds the length). -/
def pySliceLast {α : Type} (l : List α) (k : Nat) : List α :=
  l.drop (l.length - k)

/-- Embedding of the second loop of `apply_stack` (`handlers.py` 78-79):
`for handler in HANDLER_STACK[-pointer-1:]: handler.postprocess(msg)`. -/
def postPass {V : Type} (hs : List (Handler V)) (m : Msg V) : Msg V :=
  hs.foldl (fun m h => h.postprocess m) m

/-- Full outcome of a call to `apply_stack`: whether it raised `NameError`
(the loop variable `pointer` unbound on an empty stack), whether the wrapped
function was invoked, which handlers received `process` (in invocation
order), which received `postprocess` (in invocation order), and the final
message (the state at the error point when `nameError` is set). -/
structure ApplyOut (V : Type) where
  nameError : Bool
  fnCalled : Bool
  processed : List (Handler V)
  postprocessed : List (Handler V)
  msg : Msg V

/-- Embedding of `apply_stack` (`handlers.py` 70-80).  The stack is in push
order (most recently pushed last); the process loop runs over its reverse.
When the stack is empty the loop variable `pointer` is never bound, so the
slice `HANDLER_STACK[-pointer-1:]` raises `NameError` — but only after the
wrapped function has already been invoked. -/
def applyStack {V : Type} (stack : List (Handler V)) (msg : Msg V) : ApplyOut V :=
  let r := processPass stack.reverse 0 msg
  let fr := fnStep r.msg
  match r.pointer with
  | none => ⟨true, fr.2, r.processed, [], fr.1⟩
  | some p =>
    let slice := pySliceLast stack (p + 1)
    ⟨false, fr.2, r.processed, slice, postPass slice fr.1⟩

/-- Untyped Python return value of `apply_stack`: either the message
dictionary itself or a bare value. -/
inductive PyRet (V : Type) where
  | msgRet : Msg V → PyRet V
  | valRet : Option V → PyRet V

/-- What `apply_stack` actually returns (`handlers.py` 80: `return msg`):
the message dictionary. -/
def applyStackReturn {V : Type} (stack : List (Handler V)) (msg : Msg V) : PyRet V :=
  PyRet.msgRet (applyStack stack msg).msg

/-- Modelled from the spec: "Return the message's final `value`" — a
return of the bare `value` field, to be compared with `applyStackReturn`,
which is translated from the source. -/
def applyStackReturnSpec {V : Type} (stack : List (Handler V)) (msg : Msg V) : PyRet V :=
  PyRet.valRet (applyStack stack msg).msg.value

/-- Embedding of the `initial_msg` dictionary built by `effectful`
(`handlers.py` 91-97): `kwargs.pop("name", None)` removes the `"name"`
entry from the keyword arguments and stores it in the label. -/
def initialMsg {V : Type} (tt : Option V → Label V)
    (fn : List V → List (String × V) → Option V)
    (args : List V) (kwargs : List (String × V)) : Msg V :=
  { label := tt (kwargs.lookup "name")
    fn := fn
    args := args
    kwargs := kwargs.filter (fun p => p.1 != "name")
    value := none
    stop := false }

/-- Embedding of the wrapper produced by `effectful(term_type)`
(`handlers.py` 83-103): on an empty handler stack the wrapped function is
called directly with the original arguments; otherwise the initial message
is sent through `apply_stack` and its `value` field is returned. -/
def effectfulCall {V : Type} (stack : List (Handler V)) (tt : Option V → Label V)
    (fn : List V → List (String × V) → Option V)
    (args : List V) (kwargs : List (String × V)) : Option V :=
  if stack.isEmpty then fn args kwargs
  else (applyStack stack (initialMsg tt fn args kwargs)).msg.value

/-- Embedding of `Handler.__enter__` (`handlers.py` 16-17):
`HANDLER_STACK.append(self)`.  The stack holds handler identities; the top
of the stack is the last element. -/
def handlerEnter (stack : List Nat) (h : Nat) : List Nat :=
  stack ++ [h]

/-- Embedding of `Handler.__exit__` (`handlers.py` 19-21):
`assert HANDLER_STACK[-1] is self; HANDLER_STACK.pop()`.  `none` models a
fatal error (the failed assertion, or the `IndexError` on an empty
stack). -/
def handlerExit (stack : List Nat) (h : Nat) : Option (List Nat) :=
  match stack.getLast? with
  | some top => if top = h then some stack.dropLast else none
  | none => none

/-- Entering a sequence of handler scopes in order. -/
def enterAll (stack : List Nat) (hs : List Nat) : List Nat :=
  hs.foldl handlerEnter stack

/-- Exiting a sequence of handler scopes in order, stopping at the first
fatal assertion. -/
def exitAll (stack : List Nat) (hs : List Nat) : Option (List Nat) :=
  hs.foldlM handlerExit stack

/-- One of the two class-wide mappings of `OpRegistry` (`handlers.py`
39-40): an association list from operation kind to registered function,
both modelled by identifiers. -/
abbrev RegMap := List (Nat × Nat)

/-- The pair of class-wide mappings `_terms_processed` and
`_terms_postprocessed` of `OpRegistry`. -/
structure Registry where
  termsProcessed : RegMap
  termsPostprocessed : RegMap
deriving DecidableEq

/-- One registration step of `OpRegistry.register` for one `term_type`
(`handlers.py` 57-65): `assert term_type not in mapping, "cannot override"`
then insert.  `none` models the failed assertion. -/
def registerOne (m : RegMap) (k : Nat) (f : Nat) : Option RegMap :=
  match m.lookup k with
  | some _ => none
  | none => some (m ++ [(k, f)])

/-- Embedding of `OpRegistry.register(*term_types, post=False)` applied to
a function `f` (`handlers.py` 54-67): each kind is registered in turn into
the mapping selected by `post`; a duplicate kind raises the fatal
assertion. -/
def register (r : Registry) (kinds : List Nat) (post : Bool) (f : Nat) : Option Registry :=
  kinds.foldlM
    (fun r k =>
      if post then
        (registerOne r.termsPostprocessed k f).map
          fun m => { r with termsPostprocessed := m }
      else
        (registerOne r.termsProcessed k f).map
          fun m => { r with termsProcessed := m })
    r

/-- Free-variable names appearing in `SLDS.log_prob`: the discrete
variable `s_t` and the continuous variable `x_t` of time step `t`. -/
inductive VName where
  | s : Nat → VName
  | x : Nat → VName
deriving DecidableEq

/-- The pair of names `{s_j, x_j}` for every `j` in an index set. -/
def sxSet (I : Finset Nat) : Finset VName :=
  I.image VName.s ∪ I.image VName.x

/-- Modelled from the spec: a funsor term is abstracted by its `inputs`
(the set of free-variable names); the spec's term algebra says adding two
terms takes the union of their inputs. -/
def addT (a b : Finset VName) : Finset VName := a ∪ b

/-- Modelled from the spec: "reducing over a name removes it from
`inputs`" — reduction over a set of names removes them from the inputs. -/
def reduceT (a : Finset VName) (names : Finset VName) : Finset VName := a \ names

/-- State threaded through the `SLDS.log_prob` loop: the inputs of the
accumulated `log_prob` term, the indices `t` whose pair `{s_t, x_t}` has
been reduced away so far (in reduction order), and a flag recording that
every reduction so far found both of its names present in the inputs
(i.e. genuinely removed them rather than being a no-op). -/
structure LPState where
  inputs : Finset VName
  redLog : List Nat
  ok : Bool
deriving DecidableEq

/-- Inputs of `dist.Categorical(trans_probs(s=s_vars[t-1]), value=s_vars[t])`
(`eeg_funsor_slds.py` 104): for `t = 0` the substituted `s_vars[-1]` is a
constant tensor, so only `s_0` is free; for `t > 0` both `s_{t-1}` and
`s_t` are free. -/
def catInputs (t : Nat) : Finset VName :=
  if t = 0 then {VName.s 0} else {VName.s (t - 1), VName.s t}

/-- Inputs of the transition factor (`eeg_funsor_slds.py` 106-109): for
`t = 0` it is `x_init_mvn(value=x_0)` with input `x_0`; for `t > 0` it is
`x_trans_dist(s=s_t, x=x_{t-1}, y=x_t)`. -/
def transInputs (t : Nat) : Finset VName :=
  if t = 0 then {VName.x 0} else {VName.s t, VName.x (t - 1), VName.x t}

/-- Inputs of `y_dist(s=s_t, x=x_t, y=y)` (`eeg_funsor_slds.py` 115): `y`
is an observed data slice, so only `s_t` and `x_t` are free. -/
def ydistInputs (t : Nat) : Finset VName :=
  {VName.s t, VName.x t}

/-- One iteration of the main loop of `SLDS.log_prob`
(`eeg_funsor_slds.py` 100-115): add the Categorical factor, add the
transition factor, then if `t > moment_matching_lag - 1` reduce away
`{s_{t-lag}, x_{t-lag}}`, then add the observation factor.  The comparison
is taken over `Int` exactly as Python computes it. -/
def mainStep (lag : Nat) (st : LPState) (t : Nat) : LPState :=
  let i2 := addT (addT st.inputs (catInputs t)) (transInputs t)
  if (lag : Int) - 1 < (t : Int) then
    let names : Finset VName := {VName.s (t - lag), VName.x (t - lag)}
    { inputs := addT (reduceT i2 names) (ydistInputs t)
      redLog := st.redLog ++ [t - lag]
      ok := st.ok && decide (names ⊆ i2) }
  else
    { inputs := addT i2 (ydistInputs t)
      redLog := st.redLog
      ok := st.ok }

/-- One iteration of the final reduction loop of `SLDS.log_prob`
(`eeg_funsor_slds.py` 118-120): reduce away
`{s_{T-lag+t}, x_{T-lag+t}}`. -/
def finalStep (T lag : Nat) (st : LPState) (t : Nat) : LPState :=
  let j := T - lag + t
  let names : Finset VName := {VName.s j, VName.x j}
  { inputs := reduceT st.inputs names
    redLog := st.redLog ++ [j]
    ok := st.ok && decide (names ⊆ st.inputs) }

/-- The complete input-tracking run of `SLDS.log_prob` on `T` time steps
with `moment_matching_lag = lag` (`eeg_funsor_slds.py` 91-124): the main
loop over `t in range(T)` followed by the final loop over
`t in range(lag)`. -/
def logProbRun (T lag : Nat) : LPState :=
  (List.range lag).foldl (finalStep T lag)
    ((List.range T).foldl (mainStep lag) ⟨∅, [], true⟩)

/-- Counts of the per-step lists built by the main loop of
`SLDS.filter_and_predict`: `predictive_dists`, `test_LLs` (both appended
only when `t > 0`, lines 154-157) and `filtering_dists` (appended each
step when `smoothing`, line 163). -/
structure FPCounts where
  predictive : Nat
  testLLs : Nat
  filtering : Nat
deriving DecidableEq

/-- One iteration of the main loop of `SLDS.filter_and_predict`
(`eeg_funsor_slds.py` 139-163), tracking only list lengths. -/
def fpStep (smoothing : Bool) (st : FPCounts) (t : Nat) : FPCounts :=
  { predictive := if 0 < t then st.predictive + 1 else st.predictive
    testLLs := if 0 < t then st.testLLs + 1 else st.testLLs
    filtering := if smoothing then st.filtering + 1 else st.filtering }

/-- The main loop of `SLDS.filter_and_predict` over `t in range(T)`. -/
def fpLoop (T : Nat) (smoothing : Bool) : FPCounts :=
  (List.range T).foldl (fpStep smoothing) ⟨0, 0, 0⟩

/-- Length of `smoothing_dists` (`eeg_funsor_slds.py` 167-181): it starts
as `[filtering_dists[-1]]` and one element is appended per iteration of
`for t in reversed(range(T - 1))`. -/
def smoothingDistsLen (T : Nat) : Nat :=
  (List.range (T - 1)).foldl (fun n _ => n + 1) 1

/-- Length of the result of an elementwise binary torch op on two leading
dimensions, with broadcasting: equal lengths pass through, a length of 1
broadcasts, anything else is a runtime error. -/
def pyBroadcastLen (a b : Nat) : Option Nat :=
  if a = b then some a
  else if a = 1 then some b
  else if b = 1 then some a
  else none

/-- Leading-dimension lengths of the tensors returned by
`SLDS.filter_and_predict`: the predictive MSE (`predictive_mse`), the
per-step log-likelihoods (`test_LLs`), the predictive means, and (when
`smoothing`) the smoothed means. -/
structure FPResult where
  mseLen : Nat
  llLen : Nat
  predMeansLen : Nat
  smoothMeansLen : Option Nat
deriving DecidableEq

/-- Shape bookkeeping of `SLDS.filter_and_predict`
(`eeg_funsor_slds.py` 126-215) on data with `T` time steps.  `none` models
a runtime error: `filtering_dists[-1]` on an empty list (line 167,
`smoothing` with `T = 0`) or `torch.stack` on an empty `predictive_dists`
(line 184).  Otherwise: `predictive_means` is `torch.cat` of a length-1
zero row with one row per predictive dist (lines 190-192), and
`predictive_mse` comes from the elementwise difference of
`predictive_means` with the `T`-row data (line 194). -/
def filterAndPredictLens (T : Nat) (smoothing : Bool) : Option FPResult :=
  let c := fpLoop T smoothing
  if smoothing && decide (T = 0) then none
  else if c.predictive = 0 then none
  else
    (pyBroadcastLen (1 + c.predictive) T).map fun m =>
      { mseLen := m
        llLen := c.testLLs
        predMeansLen := 1 + c.predictive
        smoothMeansLen := if smoothing then some (smoothingDistsLen T) else none }

/-- Names bound at module level in `funsor/pyro/distribution.py`: the
imports of lines 4-14 and the class defined in the module. -/
def distributionModuleGlobals : List String :=
  ["OrderedDict", "dist", "torch", "constraints", "Contraction", "Delta",
   "bint", "DIM_TO_NAME", "funsor_to_tensor", "tensor_to_funsor", "Funsor",
   "FunsorDistribution"]

/-- Python builtins referenced by the body of `FunsorDistribution.mode`. -/
def pyBuiltins : List String :=
  ["isinstance", "len"]

/-- The name environment visible inside a call of
`FunsorDistribution.mode`: its sole parameter `self`, the module globals
and the builtins. -/
def modeEnv : List String :=
  "self" :: distributionModuleGlobals ++ pyBuiltins

/-- Names referenced by the body of `FunsorDistribution.mode`
(`distribution.py` 89-105) in execution order, excluding the local names
`tape`, `root`, `targets`, `argmax`, `ndims` and `value`, which are
assigned before their uses.  `delta` is also assigned in the body (line
102), but only after its first reference, so its references are unbound
when reached.  The first entry is the `AdjointTape()` call of the `with`
statement. -/
def modeExternalRefs : List String :=
  ["AdjointTape", "self", "ops", "self", "ops", "ops",
   "isinstance", "delta", "Contraction",
   "len", "delta", "isinstance", "Delta",
   "delta",
   "isinstance", "delta", "Delta",
   "len", "sample_shape", "len", "self", "len", "self",
   "funsor_to_tensor", "delta"]

/-- The first name reference that fails to resolve in an environment, i.e.
the name whose lookup raises `NameError`. -/
def firstUnresolved (env refs : List String) : Option String :=
  refs.find? (fun n => !env.contains n)

/-- A concrete handler whose `process` and `postprocess` leave the message
unchanged (like the base `Handler` class). -/
def idHandler (n : Nat) : Handler Nat :=
  ⟨n, fun m => m, fun m => m⟩

/-- A concrete handler whose `process` marks the message `stop`. -/
def stopHandler (n : Nat) : Handler Nat :=
  ⟨n, fun m => { m with stop := true }, fun m => m⟩

/-- A concrete handler whose `process` writes a value into the message. -/
def valueHandler (n v : Nat) : Handler Nat :=
  ⟨n, fun m => { m with value := some v }, fun m => m⟩

/-- A concrete message used to instantiate the theorems. -/
def sampleMsg : Msg Nat :=
  { label := ⟨none⟩
    fn := fun _ _ => some 7
    args := []
    kwargs := []
    value := none
    stop := false }

end Funsor

namespace Funsor

lemma runProcess_nil {V : Type} (m : Msg V) : runProcess [] m = m := rfl

lemma runProcess_cons {V : Type} (h : Handler V) (hs : List (Handler V)) (m : Msg V) :
    runProcess (h :: hs) m = runProcess hs (h.process m) := rfl

lemma processPass_processed_front {V : Type} :
    ∀ (hs : List (Handler V)) (i : Nat) (m : Msg V),
      (processPass hs i m).processed <+: hs := by
  intro hs
  induction hs with
  | nil => intro i m; exact List.nil_prefix
  | cons h t ih =>
    intro i m
    simp only [processPass]
    split
    · exact ⟨t, rfl⟩
    · obtain ⟨r, hr⟩ := ih (i + 1) (h.process m)
      exact ⟨r, by simpa using congrArg (h :: ·) hr⟩

lemma processPass_msg {V : Type} :
    ∀ (hs : List (Handler V)) (i : Nat) (m : Msg V),
      (processPass hs i m).msg = runProcess (processPass hs i m).processed m := by
  intro hs
  induction hs with
  | nil => intro i m; rfl
  | cons h t ih =>
    intro i m
    simp only [processPass]
    split
    · rfl
    · simpa [runProcess_cons] using ih (i + 1) (h.process m)

lemma processPass_processed_ne_nil {V : Type} :
    ∀ (hs : List (Handler V)) (i : Nat) (m : Msg V), hs ≠ [] →
      (processPass hs i m).processed ≠ [] := by
  intro hs
  cases hs with
  | nil => intro i m hne; exact absurd rfl hne
  | cons h t =>
    intro i m _
    simp only [processPass]
    split
    · simp
    · simp

lemma processPass_pointer {V : Type} :
    ∀ (hs : List (Handler V)) (i : Nat) (m : Msg V), hs ≠ [] →
      (processPass hs i m).pointer =
        some (i + (processPass hs i m).processed.length - 1) := by
  intro hs
  induction hs with
  | nil => intro i m hne; exact absurd rfl hne
  | cons h t ih =>
    intro i m _
    simp only [processPass]
    split
    · simp
    · by_cases ht : t = []
      · subst ht
        simp [processPass]
      · have hp := ih (i + 1) (h.process m) ht
        have hlen : 1 ≤ (processPass t (i + 1) (h.process m)).processed.length :=
          List.length_pos.mpr (processPass_processed_ne_nil t (i + 1) (h.process m) ht)
        rw [hp]
        simp only [Option.getD_some, List.length_cons]
        exact congrArg some (by omega)

lemma processPass_no_stop_before {V : Type} :
    ∀ (hs : List (Handler V)) (i : Nat) (m : Msg V), m.stop = false →
      ∀ p, p <+: (processPass hs i m).processed →
        p ≠ (processPass hs i m).processed → (runProcess p m).stop = false := by
  intro hs
  induction hs with
  | nil =>
    intro i m _ p hp hne
    simp only [processPass] at hp hne
    exact absurd (List.prefix_nil.mp hp) hne
  | cons h t ih =>
    intro i m hstop p hp hne
    simp only [processPass] at hp hne
    by_cases hns : (h.process m).stop = true
    · rw [if_pos hns] at hp hne
      dsimp only at hp hne
      cases p with
      | nil => simpa [runProcess_nil] using hstop
      | cons a l =>
        obtain ⟨hah, hl⟩ := List.cons_prefix_cons.mp hp
        have : l = [] := List.prefix_nil.mp hl
        subst this
        subst hah
        exact absurd rfl hne
    · rw [if_neg hns] at hp hne
      dsimp only at hp hne
      cases p with
      | nil => simpa [runProcess_nil] using hstop
      | cons a l =>
        obtain ⟨hah, hl⟩ := List.cons_prefix_cons.mp hp
        rw [hah, runProcess_cons]
        have hs1 : (h.process m).stop = false := by
          simpa using hns
        refine ih (i + 1) (h.process m) hs1 l hl ?_
        intro he
        exact hne (by rw [hah, he])

lemma processPass_stopped {V : Type} :
    ∀ (hs : List (Handler V)) (i : Nat) (m : Msg V),
      (processPass hs i m).processed.length < hs.length →
        (processPass hs i m).msg.stop = true := by
  intro hs
  induction hs with
  | nil => intro i m hlt; simp [processPass] at hlt
  | cons h t ih =>
    intro i m hlt
    simp only [processPass] at hlt ⊢
    by_cases hst : (h.process m).stop = true
    · rw [if_pos hst]
      exact hst
    · rw [if_neg hst] at hlt ⊢
      dsimp only at hlt
      simp only [List.length_cons] at hlt
      exact ih (i + 1) (h.process m) (by omega)

lemma processPass_kwargs {V : Type} :
    ∀ (hs : List (Handler V)) (i : Nat) (m : Msg V),
      (∀ hd ∈ hs, ∀ m', (hd.process m').kwargs = m'.kwargs) →
      (processPass hs i m).msg.kwargs = m.kwargs := by
  intro hs
  induction hs with
  | nil => intro i m _; rfl
  | cons h t ih =>
    intro i m hpres
    simp only [processPass]
    split
    · exact hpres h (by simp) m
    · rw [ih (i + 1) (h.process m) (fun hd hm m' => hpres hd (by simp [hm]) m')]
      exact hpres h (by simp) m

lemma applyStack_of_pointer_some {V : Type} (stack : List (Handler V)) (m : Msg V)
    (p : Nat) (h : (processPass stack.reverse 0 m).pointer = some p) :
    applyStack stack m =
      ⟨false, (fnStep (processPass stack.reverse 0 m).msg).2,
       (processPass stack.reverse 0 m).processed,
       pySliceLast stack (p + 1),
       postPass (pySliceLast stack (p + 1))
         (fnStep (processPass stack.reverse 0 m).msg).1⟩ := by
  simp only [applyStack, h]

lemma applyStack_of_pointer_none {V : Type} (stack : List (Handler V)) (m : Msg V)
    (h : (processPass stack.reverse 0 m).pointer = none) :
    applyStack stack m =
      ⟨true, (fnStep (processPass stack.reverse 0 m).msg).2,
       (processPass stack.reverse 0 m).processed, [],
       (fnStep (processPass stack.reverse 0 m).msg).1⟩ := by
  simp only [applyStack, h]

lemma applyStack_fnCalled {V : Type} (stack : List (Handler V)) (m : Msg V) :
    (applyStack stack m).fnCalled = (fnStep (processPass stack.reverse 0 m).msg).2 := by
  cases h : (processPass stack.reverse 0 m).pointer with
  | none => rw [applyStack_of_pointer_none stack m h]
  | some p => rw [applyStack_of_pointer_some stack m p h]

lemma lookup_filter_name {V : Type} :
    ∀ (l : List (String × V)),
      (l.filter (fun p => p.1 != "name")).lookup "name" = none := by
  intro l
  induction l with
  | nil => rfl
  | cons p rest ih =>
    by_cases h : p.1 = "name"
    · simp [List.filter, h, ih]
    · simp only [List.filter]
      rw [show (p.1 != "name") = true by simp [h]]
      simp [List.lookup, show ("name" == p.1) = false by simp [Ne.symm h], ih]

lemma reverse_take_reverse {α : Type} (l : List α) (k : Nat) :
    (l.reverse.take k).reverse = l.drop (l.length - k) := by
  rw [List.reverse_take]
  simp

lemma lookup_append_single (m : RegMap) (k f : Nat) (h : m.lookup k = none) :
    (m ++ [(k, f)]).lookup k = some f := by
  induction m with
  | nil => simp [List.lookup]
  | cons p rest ih =>
    obtain ⟨k1, f1⟩ := p
    rw [List.cons_append]
    simp only [List.lookup] at h ⊢
    by_cases hk : k = k1
    · subst hk
      simp at h
    · simp only [show (k == k1) = false by simp [hk]] at h ⊢
      exact ih h

/-- C1: for every non-empty handler stack and every message whose `stop`
flag is initially clear (as built by `effectful`), `apply_stack` invokes
`process` on a non-empty prefix of the reversed (most-recently-pushed
first) stack; no handler before the last processed one marked the message
`stop`; if the process pass did not reach the bottom of the stack, the
last processed handler did mark it `stop`; and `postprocess` is invoked on
exactly the processed handlers, in push order (reverse of processing
order). -/
theorem apply_stack_process_postprocess_order {V : Type} (stack : List (Handler V))
    (m : Msg V) (hne : stack ≠ []) (hstop : m.stop = false) :
    (applyStack stack m).processed ≠ [] ∧
    (applyStack stack m).processed <+: stack.reverse ∧
    (∀ p, p <+: (applyStack stack m).processed →
      p ≠ (applyStack stack m).processed → (runProcess p m).stop = false) ∧
    ((applyStack stack m).processed.length < stack.length →
      (runProcess (applyStack stack m).processed m).stop = true) ∧
    (applyStack stack m).postprocessed = (applyStack stack m).processed.reverse := by
  have hrev : stack.reverse ≠ [] := by simpa using hne
  have hlen1 : 1 ≤ (processPass stack.reverse 0 m).processed.length :=
    List.length_pos.mpr (processPass_processed_ne_nil stack.reverse 0 m hrev)
  have hp := processPass_pointer stack.reverse 0 m hrev
  have heq := applyStack_of_pointer_some stack m _ hp
  rw [heq]
  dsimp only
  refine ⟨processPass_processed_ne_nil stack.reverse 0 m hrev,
          processPass_processed_front stack.reverse 0 m,
          processPass_no_stop_before stack.reverse 0 m hstop,
          ?_, ?_⟩
  · intro hlt
    rw [← processPass_msg]
    exact processPass_stopped stack.reverse 0 m (by simpa using hlt)
  · set n := (processPass stack.reverse 0 m).processed.length with hn
    have hnle : n ≤ stack.length := by
      have := (processPass_processed_front stack.reverse 0 m).length_le
      simpa [← hn] using this
    have htake : (processPass stack.reverse 0 m).processed = stack.reverse.take n :=
      List.prefix_iff_eq_take.mp (processPass_processed_front stack.reverse 0 m)
    rw [htake, reverse_take_reverse]
    unfold pySliceLast
    congr 1
    omega

/-- C1 witness: a concrete two-handler stack and message. -/
theorem apply_stack_process_postprocess_order_witness :
    ([stopHandler 1, idHandler 2] : List (Handler Nat)) ≠ [] ∧
    sampleMsg.stop = false ∧
    ((applyStack [stopHandler 1, idHandler 2] sampleMsg).processed ≠ [] ∧
     (applyStack [stopHandler 1, idHandler 2] sampleMsg).processed <+:
       ([stopHandler 1, idHandler 2] : List (Handler Nat)).reverse ∧
     (∀ p, p <+: (applyStack [stopHandler 1, idHandler 2] sampleMsg).processed →
       p ≠ (applyStack [stopHandler 1, idHandler 2] sampleMsg).processed →
       (runProcess p sampleMsg).stop = false) ∧
     ((applyStack [stopHandler 1, idHandler 2] sampleMsg).processed.length <
       ([stopHandler 1, idHandler 2] : List (Handler Nat)).length →
       (runProcess (applyStack [stopHandler 1, idHandler 2] sampleMsg).processed
         sampleMsg).stop = true) ∧
     (applyStack [stopHandler 1, idHandler 2] sampleMsg).postprocessed =
       (applyStack [stopHandler 1, idHandler 2] sampleMsg).processed.reverse) :=
  ⟨List.cons_ne_nil _ _, rfl,
   apply_stack_process_postprocess_order _ _ (List.cons_ne_nil _ _) rfl⟩

/-- C2: in `apply_stack`, the wrapped function is invoked if and only if
the message's `value` is still `None` after the process pass; when a
handler supplied a value during `process`, the function is never called;
and when it is called, it is applied to the message's `args` and `kwargs`
and its result becomes the message's value. -/
theorem apply_stack_fn_called_iff {V : Type} (stack : List (Handler V)) (m : Msg V) :
    ((applyStack stack m).fnCalled = true ↔
      (processPass stack.reverse 0 m).msg.value = none) ∧
    (∀ v, (processPass stack.reverse 0 m).msg.value = some v →
      (applyStack stack m).fnCalled = false) ∧
    ((processPass stack.reverse 0 m).msg.value = none →
      (fnStep (processPass stack.reverse 0 m).msg).1.value =
        (processPass stack.reverse 0 m).msg.fn
          (processPass stack.reverse 0 m).msg.args
          (processPass stack.reverse 0 m).msg.kwargs) := by
  rw [applyStack_fnCalled]
  cases hv : (processPass stack.reverse 0 m).msg.value with
  | none => simp [fnStep, hv]
  | some v => simp [fnStep, hv]

/-- C2 witness: a handler that supplies a value suppresses the function
call. -/
theorem apply_stack_fn_called_iff_witness :
    (processPass ([valueHandler 1 5] : List (Handler Nat)).reverse 0 sampleMsg).msg.value =
      some 5 ∧
    (applyStack [valueHandler 1 5] sampleMsg).fnCalled = false :=
  ⟨rfl, (apply_stack_fn_called_iff [valueHandler 1 5] sampleMsg).2.1 5 rfl⟩

/-- C3 counterexample: `apply_stack` does not return the message's final
`value` as its return result — it returns the message dictionary itself
(`handlers.py` line 80 is `return msg`), from which the caller extracts
`["value"]`. -/
theorem apply_stack_return_counterexample :
    applyStackReturn [idHandler 0] sampleMsg ≠ applyStackReturnSpec [idHandler 0] sampleMsg :=
  fun h => PyRet.noConfusion h

/-- C3 amended: `apply_stack` returns the final message object — the
message after the process pass, the optional function call and all
postprocess hooks — and its caller `effectful` extracts the message's
final `value` field as the overall result. -/
theorem apply_stack_returns_message {V : Type} (stack : List (Handler V))
    (tt : Option V → Label V) (fn : List V → List (String × V) → Option V)
    (args : List V) (kwargs : List (String × V)) (hne : stack ≠ []) :
    ∃ mfinal : Msg V,
      applyStackReturn stack (initialMsg tt fn args kwargs) = PyRet.msgRet mfinal ∧
      (applyStack stack (initialMsg tt fn args kwargs)).nameError = false ∧
      mfinal =
        postPass (applyStack stack (initialMsg tt fn args kwargs)).postprocessed
          (fnStep (processPass stack.reverse 0 (initialMsg tt fn args kwargs)).msg).1 ∧
      effectfulCall stack tt fn args kwargs = mfinal.value := by
  have hrev : stack.reverse ≠ [] := by simpa using hne
  have hp := processPass_pointer stack.reverse 0 (initialMsg tt fn args kwargs) hrev
  have heq := applyStack_of_pointer_some stack (initialMsg tt fn args kwargs) _ hp
  refine ⟨(applyStack stack (initialMsg tt fn args kwargs)).msg, rfl, ?_, ?_, ?_⟩
  · rw [heq]
  · rw [heq]
  · unfold effectfulCall
    rw [if_neg (by simpa [List.isEmpty_iff] using hne)]

/-- C3 amended witness: a concrete one-handler stack. -/
theorem apply_stack_returns_message_witness :
    ([idHandler 0] : List (Handler Nat)) ≠ [] ∧
    (∃ mfinal : Msg Nat,
      applyStackReturn [idHandler 0]
          (initialMsg (fun o => ⟨o⟩) (fun _ _ => some 7) [] []) = PyRet.msgRet mfinal ∧
      (applyStack [idHandler 0]
          (initialMsg (fun o => ⟨o⟩) (fun _ _ => some 7) [] [])).nameError = false ∧
      mfinal =
        postPass (applyStack [idHandler 0]
            (initialMsg (fun o => ⟨o⟩) (fun _ _ => some 7) [] [])).postprocessed
          (fnStep (processPass ([idHandler 0] : List (Handler Nat)).reverse 0
            (initialMsg (fun o => ⟨o⟩) (fun _ _ => some 7) [] [])).msg).1 ∧
      effectfulCall [idHandler 0] (fun o => ⟨o⟩) (fun _ _ => some 7) [] [] = mfinal.value) :=
  ⟨List.cons_ne_nil _ _,
   apply_stack_returns_message _ _ _ _ _ (List.cons_ne_nil _ _)⟩

/-- C6: entering a handler's scope appends it to the stack; exiting a
properly nested scope pops it back off; exiting when the handler is not
the top of the stack fails with the fatal assertion instead of popping;
and unwinding any nested sequence of scopes in reverse-push order never
triggers the assertion. -/
theorem handler_stack_discipline :
    (∀ s h, handlerEnter s h = s ++ [h]) ∧
    (∀ s h, handlerExit (handlerEnter s h) h = some s) ∧
    (∀ s h, s.getLast? ≠ some h → handlerExit s h = none) ∧
    (∀ s hs, exitAll (enterAll s hs) hs.reverse = some s) := by
  refine ⟨fun s h => rfl, ?_, ?_, ?_⟩
  · intro s h
    unfold handlerExit handlerEnter
    rw [List.getLast?_concat]
    simp
  · intro s h hne
    unfold handlerExit
    cases hl : s.getLast? with
    | none => rfl
    | some top =>
      have hth : top ≠ h := fun e => hne (by rw [hl, e])
      simp [hth]
  · intro s hs
    induction hs generalizing s with
    | nil => rfl
    | cons h t ih =>
      rw [List.reverse_cons]
      have he : enterAll s (h :: t) = enterAll (s ++ [h]) t := rfl
      rw [he]
      unfold exitAll
      rw [List.foldlM_append]
      have hih := ih (s ++ [h])
      unfold exitAll at hih
      rw [hih]
      simp [List.foldlM, handlerExit, List.getLast?_concat]

/-- C6 witness: exiting a handler that is not on top of the stack fails. -/
theorem handler_stack_discipline_witness :
    ([1, 2] : List Nat).getLast? ≠ some 3 ∧ handlerExit [1, 2] 3 = none :=
  ⟨by decide, handler_stack_discipline.2.2.1 [1, 2] 3 (by decide)⟩

/-- C7: `OpRegistry.register` fails with the fatal assertion exactly when
the operation kind is already present in the mapping selected by `post`;
registering a fresh kind appends it to that mapping and leaves the other
mapping unchanged; and the same kind can be registered once in the
process mapping and once in the postprocess mapping without conflict. -/
theorem op_registry_register_exactly_once :
    (∀ (r : Registry) (k f v : Nat), r.termsProcessed.lookup k = some v →
      register r [k] false f = none) ∧
    (∀ (r : Registry) (k f : Nat), r.termsProcessed.lookup k = none →
      register r [k] false f =
        some ⟨r.termsProcessed ++ [(k, f)], r.termsPostprocessed⟩) ∧
    (∀ (r : Registry) (k f v : Nat), r.termsPostprocessed.lookup k = some v →
      register r [k] true f = none) ∧
    (∀ (r : Registry) (k f : Nat), r.termsPostprocessed.lookup k = none →
      register r [k] true f =
        some ⟨r.termsProcessed, r.termsPostprocessed ++ [(k, f)]⟩) ∧
    (∀ (r : Registry) (k f g : Nat), r.termsProcessed.lookup k = none →
      r.termsPostprocessed.lookup k = none →
      register r [k] false f =
        some ⟨r.termsProcessed ++ [(k, f)], r.termsPostprocessed⟩ ∧
      register (⟨r.termsProcessed ++ [(k, f)], r.termsPostprocessed⟩ : Registry)
          [k] true g =
        some ⟨r.termsProcessed ++ [(k, f)], r.termsPostprocessed ++ [(k, g)]⟩ ∧
      (r.termsProcessed ++ [(k, f)]).lookup k = some f ∧
      (r.termsPostprocessed ++ [(k, g)]).lookup k = some g) := by
  refine ⟨?_, ?_, ?_, ?_, ?_⟩
  · intro r k f v h
    simp [register, List.foldlM, registerOne, h]
  · intro r k f h
    simp [register, List.foldlM, registerOne, h]
  · intro r k f v h
    simp [register, List.foldlM, registerOne, h]
  · intro r k f h
    simp [register, List.foldlM, registerOne, h]
  · intro r k f g h1 h2
    refine ⟨by simp [register, List.foldlM, registerOne, h1],
            by simp [register, List.foldlM, registerOne, h2],
            lookup_append_single _ k f h1, lookup_append_single _ k g h2⟩

/-- C7 witness: re-registering kind 1 in the process mapping fails. -/
theorem op_registry_register_exactly_once_witness :
    (⟨[(1, 10)], []⟩ : Registry).termsProcessed.lookup 1 = some 10 ∧
    register ⟨[(1, 10)], []⟩ [1] false 11 = none :=
  ⟨rfl, op_registry_register_exactly_once.1 ⟨[(1, 10)], []⟩ 1 11 10 rfl⟩

/-- C8: `FunsorDistribution.mode` never produces a value: the very first
name its body resolves, `AdjointTape`, is neither defined nor imported in
the module, so every call raises a name-resolution error; `ops`, `delta`
and `sample_shape` are equally absent from the environment. -/
theorem mode_name_error :
    firstUnresolved modeEnv modeExternalRefs = some "AdjointTape" ∧
    "AdjointTape" ∉ modeEnv ∧ "ops" ∉ modeEnv ∧ "delta" ∉ modeEnv ∧
    "sample_shape" ∉ modeEnv := by
  decide

/-- C9: calling `apply_stack` on an empty handler stack always fails with
the unbound-name error at the postprocess slice, but only after the
wrapped function has already been invoked (when the value was `None`) —
so its side effects occur even though `apply_stack` does not return; and
`effectful` bypasses `apply_stack` entirely on an empty stack, calling the
function directly. -/
theorem apply_stack_empty_stack_fails {V : Type} (m : Msg V) (h : m.value = none) :
    (applyStack [] m).nameError = true ∧
    (applyStack [] m).fnCalled = true ∧
    (applyStack [] m).processed = [] ∧
    (applyStack [] m).postprocessed = [] ∧
    (applyStack [] m).msg.value = m.fn m.args m.kwargs ∧
    (∀ (tt : Option V → Label V) (fn : List V → List (String × V) → Option V)
        (args : List V) (kwargs : List (String × V)),
      effectfulCall ([] : List (Handler V)) tt fn args kwargs = fn args kwargs) := by
  refine ⟨rfl, ?_, rfl, rfl, ?_, fun tt fn args kwargs => rfl⟩
  · show (fnStep m).2 = true
    simp [fnStep, h]
  · show (fnStep m).1.value = m.fn m.args m.kwargs
    simp [fnStep, h]

/-- C9 witness: the concrete sample message. -/
theorem apply_stack_empty_stack_fails_witness :
    sampleMsg.value = none ∧
    (applyStack ([] : List (Handler Nat)) sampleMsg).nameError = true ∧
    (applyStack ([] : List (Handler Nat)) sampleMsg).fnCalled = true :=
  ⟨rfl, (apply_stack_empty_stack_fails sampleMsg rfl).1,
   (apply_stack_empty_stack_fails sampleMsg rfl).2.1⟩

/-- C10: when a `"name"` keyword argument is supplied, the empty-stack
fast path of `effectful` calls the function with the keyword arguments
unchanged (including `"name"`), while the non-empty path removes `"name"`
from the message's keyword arguments and stores it only in the label, so
the function — invoked inside `apply_stack` on the message's keyword
arguments — never sees it (as long as no handler's `process` rewrites the
kwargs field). -/
theorem effectful_name_kwarg {V : Type} (tt : Option V → Label V)
    (fn : List V → List (String × V) → Option V) (args : List V)
    (kwargs : List (String × V)) (v : V) (h : kwargs.lookup "name" = some v) :
    effectfulCall ([] : List (Handler V)) tt fn args kwargs = fn args kwargs ∧
    (initialMsg tt fn args kwargs).kwargs.lookup "name" = none ∧
    (initialMsg tt fn args kwargs).label = tt (some v) ∧
    (∀ stack : List (Handler V), stack ≠ [] →
      effectfulCall stack tt fn args kwargs =
        (applyStack stack (initialMsg tt fn args kwargs)).msg.value) ∧
    (∀ stack : List (Handler V),
      (∀ hd ∈ stack, ∀ m', (hd.process m').kwargs = m'.kwargs) →
      (processPass stack.reverse 0 (initialMsg tt fn args kwargs)).msg.kwargs.lookup
        "name" = none) := by
  refine ⟨rfl, lookup_filter_name kwargs, ?_, ?_, ?_⟩
  · simp [initialMsg, h]
  · intro stack hne
    unfold effectfulCall
    rw [if_neg (by simpa [List.isEmpty_iff] using hne)]
  · intro stack hpres
    rw [processPass_kwargs stack.reverse 0 _
      (fun hd hm m' => hpres hd (List.mem_reverse.mp hm) m')]
    exact lookup_filter_name kwargs

/-- C10 witness: a concrete kwargs list containing a `"name"` entry. -/
theorem effectful_name_kwarg_witness :
    ([("name", 3)] : List (String × Nat)).lookup "name" = some 3 ∧
    (initialMsg (fun o => (⟨o⟩ : Label Nat)) (fun _ _ => none) [] [("name", 3)]).label =
      (⟨some 3⟩ : Label Nat) :=
  ⟨by decide,
   (effectful_name_kwarg (fun o => (⟨o⟩ : Label Nat)) (fun _ _ => none) []
     [("name", 3)] 3 (by decide)).2.2.1⟩

lemma foldl_count {α : Type} :
    ∀ (l : List α) (a : Nat), l.foldl (fun n _ => n + 1) a = a + l.length := by
  intro l
  induction l with
  | nil => intro a; rfl
  | cons h t ih =>
    intro a
    rw [List.foldl_cons, ih (a + 1), List.length_cons]
    omega

lemma smoothingDistsLen_eq (T : Nat) : smoothingDistsLen T = T - 1 + 1 := by
  unfold smoothingDistsLen
  rw [foldl_count, List.length_range]
  omega

lemma fpLoop_counts (smoothing : Bool) :
    ∀ T, (fpLoop T smoothing).predictive = T - 1 ∧
      (fpLoop T smoothing).testLLs = T - 1 ∧
      (fpLoop T smoothing).filtering = if smoothing then T else 0 := by
  intro T
  induction T with
  | zero => cases smoothing <;> simp [fpLoop]
  | succ n ih =>
    obtain ⟨h1, h2, h3⟩ := ih
    unfold fpLoop at h1 h2 h3 ⊢
    rw [List.range_succ, List.foldl_append, List.foldl_cons, List.foldl_nil]
    refine ⟨?_, ?_, ?_⟩
    · simp only [fpStep, h1]
      split <;> omega
    · simp only [fpStep, h2]
      split <;> omega
    · simp only [fpStep, h3]
      cases smoothing <;> simp

/-- C5 counterexample: on 3 time steps the predictive MSE tensor has
length 3, not `3 - 1`: `predictive_means` is the concatenation of one zero
initial row with the `T - 1` predictive rows (`eeg_funsor_slds.py`
190-192), and the MSE is taken elementwise against all `T` data rows
(line 194). -/
theorem filter_and_predict_mse_len_counterexample :
    (filterAndPredictLens 3 false).map FPResult.mseLen = some 3 ∧
    (filterAndPredictLens 3 false).map FPResult.mseLen ≠ some (3 - 1) := by
  decide

/-- C5 amended: for every data sequence with `T ≥ 2` time steps,
`filter_and_predict` returns a predictive MSE array of length `T` (a zero
prediction is prepended for the first step), a per-step log-likelihood
array of length `T - 1`, predictive means of length `T`, and with
`smoothing=True` additionally smoothed means of length `T`. -/
theorem filter_and_predict_shapes (T : Nat) (hT : 2 ≤ T) (smoothing : Bool) :
    filterAndPredictLens T smoothing =
      some ⟨T, T - 1, T, if smoothing then some T else none⟩ := by
  obtain ⟨h1, h2, h3⟩ := fpLoop_counts smoothing T
  have hT0 : (smoothing && decide (T = 0)) = false := by
    have : decide (T = 0) = false := by simp; omega
    rw [this, Bool.and_false]
  have hpred : ¬ (fpLoop T smoothing).predictive = 0 := by
    rw [h1]; omega
  have hbl : pyBroadcastLen (1 + (fpLoop T smoothing).predictive) T = some T := by
    rw [h1]
    unfold pyBroadcastLen
    rw [if_pos (by omega)]
    congr 1
    omega
  have hpm : 1 + (fpLoop T smoothing).predictive = T := by
    rw [h1]; omega
  have hsm : smoothingDistsLen T = T := by
    rw [smoothingDistsLen_eq]; omega
  unfold filterAndPredictLens
  rw [if_neg (show ¬ ((smoothing && decide (T = 0)) = true) by rw [hT0]; simp),
      if_neg hpred, hbl]
  simp only [Option.map_some', h2, hpm, hsm]

/-- C5 amended witness: four time steps with smoothing. -/
theorem filter_and_predict_shapes_witness :
    2 ≤ 4 ∧ filterAndPredictLens 4 true = some ⟨4, 4 - 1, 4, if true then some 4 else none⟩ :=
  ⟨by decide, filter_and_predict_shapes 4 (by decide) true⟩

lemma mem_sxSet_s (I : Finset Nat) (j : Nat) : VName.s j ∈ sxSet I ↔ j ∈ I := by
  simp [sxSet]

lemma mem_sxSet_x (I : Finset Nat) (j : Nat) : VName.x j ∈ sxSet I ↔ j ∈ I := by
  simp [sxSet]

lemma mainLoop_inv (lag : Nat) (hlag : 1 ≤ lag) :
    ∀ k, ((List.range k).foldl (mainStep lag) ⟨∅, [], true⟩ : LPState).inputs =
        sxSet (Finset.Ico (k - lag) k) ∧
      ((List.range k).foldl (mainStep lag) ⟨∅, [], true⟩ : LPState).redLog =
        List.range (k - lag) ∧
      ((List.range k).foldl (mainStep lag) ⟨∅, [], true⟩ : LPState).ok = true := by
  intro k
  induction k with
  | zero => simp [sxSet]
  | succ n ih =>
    obtain ⟨h1, h2, h3⟩ := ih
    rw [List.range_succ, List.foldl_append, List.foldl_cons, List.foldl_nil]
    simp only [mainStep]
    by_cases hc : (lag : Int) - 1 < (n : Int)
    · have hnlag : lag ≤ n := by omega
      have hn0 : ¬ n = 0 := by omega
      rw [if_pos hc]
      refine ⟨?_, ?_, ?_⟩
      · rw [h1]
        ext v
        cases v with
        | s j =>
          simp [addT, reduceT, sxSet, catInputs, transInputs, ydistInputs, hn0,
            Finset.mem_Ico]
          omega
        | x j =>
          simp [addT, reduceT, sxSet, catInputs, transInputs, ydistInputs, hn0,
            Finset.mem_Ico]
          omega
      · dsimp only
        rw [h2, ← List.range_succ]
        congr 1
        omega
      · rw [Bool.and_eq_true]
        refine ⟨h3, ?_⟩
        rw [decide_eq_true_eq, h1]
        rw [Finset.insert_subset_iff, Finset.singleton_subset_iff]
        constructor
        · simp [addT, sxSet, catInputs, transInputs, hn0, Finset.mem_Ico]
          omega
        · simp [addT, sxSet, catInputs, transInputs, hn0, Finset.mem_Ico]
          omega
    · have hnlag : n < lag := by omega
      have e0 : n - lag = 0 := by omega
      have e1 : n + 1 - lag = 0 := by omega
      rw [if_neg hc]
      refine ⟨?_, ?_, ?_⟩
      · rw [h1, e0, e1]
        by_cases hn0 : n = 0
        · subst hn0
          ext v
          cases v with
          | s j =>
            simp [addT, sxSet, catInputs, transInputs, ydistInputs, Finset.mem_Ico]
          | x j =>
            simp [addT, sxSet, catInputs, transInputs, ydistInputs, Finset.mem_Ico]
        · ext v
          cases v with
          | s j =>
            simp [addT, sxSet, catInputs, transInputs, ydistInputs, hn0, Finset.mem_Ico]
            omega
          | x j =>
            simp [addT, sxSet, catInputs, transInputs, ydistInputs, hn0, Finset.mem_Ico]
            omega
      · rw [h2, e0, e1]
      · exact h3

lemma finalLoop_inv (T lag : Nat) (hlag : 1 ≤ lag) (hT : lag ≤ T) :
    ∀ m2, m2 ≤ lag →
      ((List.range m2).foldl (finalStep T lag)
          ((List.range T).foldl (mainStep lag) ⟨∅, [], true⟩) : LPState).inputs =
        sxSet (Finset.Ico (T - lag + m2) T) ∧
      ((List.range m2).foldl (finalStep T lag)
          ((List.range T).foldl (mainStep lag) ⟨∅, [], true⟩) : LPState).redLog =
        List.range (T - lag + m2) ∧
      ((List.range m2).foldl (finalStep T lag)
          ((List.range T).foldl (mainStep lag) ⟨∅, [], true⟩) : LPState).ok = true := by
  intro m2
  induction m2 with
  | zero =>
    intro _
    obtain ⟨h1, h2, h3⟩ := mainLoop_inv lag hlag T
    exact ⟨by simpa using h1, by simpa using h2, by simpa using h3⟩
  | succ m ih =>
    intro hm
    obtain ⟨h1, h2, h3⟩ := ih (by omega)
    have hjlt : T - lag + m < T := by omega
    rw [List.range_succ, List.foldl_append, List.foldl_cons, List.foldl_nil]
    simp only [finalStep]
    refine ⟨?_, ?_, ?_⟩
    · rw [h1]
      ext v
      cases v with
      | s j =>
        simp [reduceT, sxSet, Finset.mem_Ico]
        omega
      | x j =>
        simp [reduceT, sxSet, Finset.mem_Ico]
        omega
    · dsimp only
      rw [h2, ← List.range_succ]
      exact congrArg List.range (by omega)
    · rw [Bool.and_eq_true]
      refine ⟨h3, ?_⟩
      rw [decide_eq_true_eq, h1]
      rw [Finset.insert_subset_iff, Finset.singleton_subset_iff]
      constructor
      · rw [mem_sxSet_s, Finset.mem_Ico]
        omega
      · rw [mem_sxSet_x, Finset.mem_Ico]
        omega

/-- C4: for every data sequence with `T` time steps where
`T ≥ moment_matching_lag ≥ 1`, `SLDS.log_prob` reduces away every
discrete variable `s_t` and continuous variable `x_t` it introduces: the
final accumulated term has empty inputs (so the fatal `unexpected free
variables remain` assertion is unreachable), the reduction log removes
the pair of index `t` exactly once for each `t < T` (in-loop reductions
handle `t ≤ T - 1 - lag`, the final loop the last `lag` indices), and
every reduction found both of its names present in the inputs, i.e.
genuinely removed them. -/
theorem slds_log_prob_eliminates_all_variables (T lag : Nat)
    (hlag : 1 ≤ lag) (hT : lag ≤ T) :
    (logProbRun T lag).inputs = ∅ ∧
    (logProbRun T lag).redLog = List.range T ∧
    (logProbRun T lag).ok = true := by
  obtain ⟨h1, h2, h3⟩ := finalLoop_inv T lag hlag hT lag le_rfl
  unfold logProbRun
  refine ⟨?_, ?_, h3⟩
  · rw [h1]
    have he : T - lag + lag = T := by omega
    rw [he]
    simp [sxSet]
  · rw [h2]
    congr 1
    omega

/-- C4 witness: three time steps with lag two. -/
theorem slds_log_prob_eliminates_all_variables_witness :
    (1 ≤ 2 ∧ 2 ≤ 3) ∧
    ((logProbRun 3 2).inputs = ∅ ∧
     (logProbRun 3 2).redLog = List.range 3 ∧
     (logProbRun 3 2).ok = true) :=
  ⟨⟨by decide, by decide⟩,
   slds_log_prob_eliminates_all_variables 3 2 (by decide) (by decide)⟩

end Funsor


